import Mathlib

/-
Verification of the archive-assembly procedure of
`src/web_bootanimation.py` (MaxwellDPS/android-boot-anamation-api).

The embedding models:
  * Python string comparison (code-point lexicographic), used by `sorted(files)`;
  * a small filesystem as an association list from paths (component lists) to
    entries (directories, text files, or the produced zip archive, which is
    modelled as its ordered member list);
  * `create_bootanimation_zip` (lines 26-80 of the source) as a state-passing
    function over that filesystem, parameterised by the outcome of the external
    ffmpeg invocation (line 53-60), which either fails (raising `ffmpeg.Error`)
    or deposits a finite set of frame files into the part folder;
  * the `%04d` frame-numbering semantics of the ffmpeg output pattern
    `frame_%04d.png` (line 58): decimal digits padded with zeros to a minimum
    width of four;
  * the error translation performed by the `api_convert` route (lines 249-264);
  * the dimension probe of section 4.2 of the specification, which has no code
    under src/ and is modelled from the specification text.
-/

namespace BootAnim

/- ----------------------------------------------------------------------------
Python string comparison.  Python compares strings lexicographically by
Unicode code point; `sorted(files)` (source line 75) uses this order.
---------------------------------------------------------------------------- -/

/-- Lexicographic comparison of character lists by code point, the semantics of
the comparison Python applies inside `sorted(files)`. -/
def charsLt : List Char → List Char → Bool
  | [], [] => false
  | [], _ :: _ => true
  | _ :: _, [] => false
  | a :: as, b :: bs => if a < b then true else if b < a then false else charsLt as bs

/-- Strict comparison of Python strings: lexicographic on the code points. -/
def strLt (a b : String) : Bool := charsLt a.data b.data

/-- Non-strict comparison of Python strings, as used by a stable sort. -/
def strLe (a b : String) : Bool := !(strLt b a)

/-- Insert a named file into a list sorted by name. -/
def insortBy (x : String × String) : List (String × String) → List (String × String)
  | [] => [x]
  | y :: l => if strLe x.1 y.1 then x :: y :: l else y :: insortBy x l

/-- The semantics of the `sorted(files)` call at source line 75: a stable sort
of the directory listing by Python string comparison of the names (realised
here as an insertion sort; on the distinct names of a directory listing every
correct sort produces the same, unique sorted arrangement). -/
def sortFiles : List (String × String) → List (String × String)
  | [] => []
  | x :: l => insortBy x (sortFiles l)

/- ----------------------------------------------------------------------------
Filesystem model.  Paths are lists of components; the state is an association
list.  Writing replaces the entry with the same path.
---------------------------------------------------------------------------- -/

/-- A filesystem path, as a list of components. -/
abbrev Path := List String

/-- A filesystem entry: a directory, a text file, or the produced zip archive.
The archive is modelled as its member list in insertion order, each member a
pair of archive-internal path and file content. -/
inductive Entry where
  | dir : Entry
  | file (content : String) : Entry
  | zipFile (members : List (String × String)) : Entry
deriving DecidableEq

/-- The filesystem state: an association list from paths to entries. -/
abbrev FS := List (Path × Entry)

/-- Look up the entry at a path (first match in the association list). -/
def fsGet (p : Path) (fs : FS) : Option Entry :=
  match fs.find? (fun q => q.1 == p) with
  | some pe => some pe.2
  | none => none

/-- Existence test, modelling `os.path.exists` (source line 44). -/
def fsExists (p : Path) (fs : FS) : Bool := (fsGet p fs).isSome

/-- Remove the entry with the given path, if any. -/
def fsRemove (p : Path) : FS → FS
  | [] => []
  | pe :: fs => if pe.1 = p then fsRemove p fs else pe :: fsRemove p fs

/-- Create or overwrite the entry at a path, modelling `os.makedirs`, file
writes and `zipfile.ZipFile(output_zip, "w")`. -/
def fsSet (p : Path) (e : Entry) (fs : FS) : FS :=
  (p, e) :: fsRemove p fs

/-- Test whether `d` is a prefix of (or equal to) `p`. -/
def isUnderB (d p : Path) : Bool := p.take d.length == d

/-- Remove a directory tree, modelling `shutil.rmtree` (source line 45): every
entry at or below `d` disappears. -/
def rmtree (d : Path) : FS → FS
  | [] => []
  | pe :: fs => if isUnderB d pe.1 then rmtree d fs else pe :: rmtree d fs

/-- Deposit the frame files produced by the external extraction into the part
folder, one file per frame, later frames overwriting earlier ones of the same
name (the behaviour of repeated writes into one directory). -/
def writeFrames (d : Path) (frames : List (String × String)) (fs : FS) : FS :=
  frames.foldl (fun acc nc => fsSet (d ++ [nc.1]) (Entry.file nc.2) acc) fs

/-- The directory listing step of `os.walk(part_folder)`: recognise an entry as
a file directly inside `d` and return its name and content. -/
def childEntry (d : Path) (pe : Path × Entry) : Option (String × String) :=
  match pe.2, pe.1.drop d.length with
  | Entry.file c, [f] => if pe.1.take d.length = d then some (f, c) else none
  | _, _ => none

/-- All files directly inside directory `d`, with contents, in association-list
order (the order in which `os.walk` reports them is irrelevant because the
source sorts the names before use). -/
def childFiles (d : Path) : FS → List (String × String)
  | [] => []
  | pe :: fs =>
    match childEntry d pe with
    | some nc => nc :: childFiles d fs
    | none => childFiles d fs

/- ----------------------------------------------------------------------------
The archive builder, `create_bootanimation_zip` (source lines 26-80).
---------------------------------------------------------------------------- -/

/-- The numeric and naming parameters of one conversion, exactly the keyword
parameters of `create_bootanimation_zip` other than the three paths. -/
structure BuildArgs where
  width : Int
  height : Int
  fps : Int
  partName : String
  loopCount : Int
  pause : Int
deriving DecidableEq

/-- The error raised by the external `ffmpeg.run()` invocation
(`ffmpeg.Error`), carrying its message. -/
inductive FfmpegError where
  | failure (msg : String) : FfmpegError
deriving DecidableEq

/-- Message text of an ffmpeg error, the `str(e)` of the source. -/
def FfmpegError.message : FfmpegError → String
  | .failure m => m

/-- Content written to `desc.txt` by source lines 64-66: the two f-strings
`f"{width} {height} {fps}\n"` and `f"p {loop_count} {pause} {part_name}\n"`. -/
def descTxt (a : BuildArgs) : String :=
  toString a.width ++ " " ++ toString a.height ++ " " ++ toString a.fps ++ "\n"
    ++ "p " ++ toString a.loopCount ++ " " ++ toString a.pause ++ " " ++ a.partName ++ "\n"

/-- Shallow embedding of `create_bootanimation_zip` (source lines 26-80) as a
state-passing function.  `ffmpegResult` is the outcome of the external ffmpeg
run of lines 53-60: an error (the raised `ffmpeg.Error` propagates, leaving the
state as it was at the raise) or the finite list of frame files it wrote into
the part folder.  On success the produced zip is recorded at `outputZip` as its
member list in insertion order, and the function returns the output path as the
source does (line 80). -/
def create_bootanimation_zip (a : BuildArgs) (extractFolder outputZip : Path)
    (ffmpegResult : Except FfmpegError (List (String × String))) (fs : FS) :
    FS × Except FfmpegError Path :=
  -- lines 44-46: clean up the extract folder if it exists, then recreate it
  let fs1 := if fsExists extractFolder fs then rmtree extractFolder fs else fs
  let fs2 := fsSet extractFolder Entry.dir fs1
  -- lines 48-49: create the part folder
  let partFolder := extractFolder ++ [a.partName]
  let fs3 := fsSet partFolder Entry.dir fs2
  -- lines 53-60: run ffmpeg; an error terminates the call here
  match ffmpegResult with
  | Except.error e => (fs3, Except.error e)
  | Except.ok frames =>
    let fs4 := writeFrames partFolder frames fs3
    -- lines 63-66: write desc.txt
    let descPath := extractFolder ++ ["desc.txt"]
    let fs5 := fsSet descPath (Entry.file (descTxt a)) fs4
    -- lines 69-78: write the zip: desc.txt first, then the files found in the
    -- part folder in sorted name order, each under the part-name prefix
    let files := childFiles partFolder fs5
    let members := ("desc.txt", descTxt a) ::
      (sortFiles files).map (fun nc => (a.partName ++ "/" ++ nc.1, nc.2))
    let fs6 := fsSet outputZip (Entry.zipFile members) fs5
    (fs6, Except.ok outputZip)

/-- An HTTP response of the JSON API, reduced to status code and body text. -/
structure HttpResponse where
  status : Nat
  body : String
deriving DecidableEq

/-- Shallow embedding of the conversion part of the `api_convert` route
(source lines 249-268): call the builder once; if it raises, translate the
error into a 500 response; otherwise answer 200 with the download URL. -/
def api_convert (a : BuildArgs) (extractFolder outputZip : Path)
    (ffmpegResult : Except FfmpegError (List (String × String))) (fs : FS)
    (downloadUrl : String) : FS × HttpResponse :=
  let r := create_bootanimation_zip a extractFolder outputZip ffmpegResult fs
  match r.2 with
  | Except.error e => (r.1, ⟨500, "ffmpeg-python failed: " ++ e.message⟩)
  | Except.ok _ => (r.1, ⟨200, downloadUrl⟩)

/- ----------------------------------------------------------------------------
Frame naming: the semantics of the printf pattern `frame_%04d.png` handed to
ffmpeg at source line 58.  `%04d` renders the decimal digits of the frame
index padded with zeros to a minimum field width of four; the index starts
at 1.
---------------------------------------------------------------------------- -/

/-- Big-endian decimal digits, computed with a structural fuel argument so that
it reduces inside the kernel; the fuel is always sufficient because a number
has at most as many digits as its value plus one. -/
def decDigitsAux : Nat → Nat → List Char
  | 0, _ => []
  | fuel + 1, n =>
    if n < 10 then [Nat.digitChar n]
    else decDigitsAux fuel (n / 10) ++ [Nat.digitChar (n % 10)]

/-- Big-endian decimal digits of a natural number, the digit string printf
produces for `%d`. -/
def decDigits (n : Nat) : List Char := decDigitsAux (n + 1) n

/-- The printf `%0wd` rendering: decimal digits left-padded with zeros to a
minimum field width of `w`.  Wider numbers keep all their digits. -/
def printfPad (w : Nat) (n : Nat) : String :=
  String.mk (List.replicate (w - (decDigits n).length) '0' ++ decDigits n)

/-- The name ffmpeg gives the i-th extracted frame under the pattern
`frame_%04d.png` of source line 58 (indices start at 1). -/
def frameName (i : Nat) : String := "frame_" ++ printfPad 4 i ++ ".png"

/-- Exactly `k` decimal digit characters of `n` (defined for reasoning about
the padded rendering: for `n` below `10 ^ k` the padded form has this shape). -/
def decDigitsFixed : Nat → Nat → List Char
  | 0, _ => []
  | k + 1, n => decDigitsFixed k (n / 10) ++ [Nat.digitChar (n % 10)]

/- ----------------------------------------------------------------------------
Helper definitions for the correctness statements.
---------------------------------------------------------------------------- -/

/-- Effect of a sequence of file writes on a directory listing: each write
prepends its file and shadows an earlier file of the same name. -/
def writeLog : List (String × String) → List (String × String) → List (String × String)
  | [], m => m
  | nc :: l, m => writeLog l (nc :: m.filter (fun q => q.1 != nc.1))

/-- A filesystem is closed under a directory when entries below the directory
can only exist if the directory itself does: true of every real filesystem
state, and the shape assumption under which the builder is analysed. -/
abbrev closedUnder (d : Path) (fs : FS) : Prop :=
  fsExists d fs = false → ∀ pe ∈ fs, isUnderB d pe.1 = false

/- ----------------------------------------------------------------------------
The dimension probe of specification section 4.2.  No probing code exists
under src/ (the source there never inspects stream metadata), so the probe is
modelled from the specification text.
---------------------------------------------------------------------------- -/

/-- Stream metadata of a media file, as reported by the external inspection
tool: codec type and, for video streams, pixel dimensions. -/
structure FfStream where
  codecType : String
  width : Int
  height : Int
deriving DecidableEq

/-- Failure of the dimension probe. -/
inductive ProbeError where
  | noVideoStream : ProbeError
deriving DecidableEq

/-- Modelled from the spec: the dimension probe of section 4.2, absent from
src/.  It inspects the stream metadata of the source video and returns the
pixel dimensions of its first video stream, failing with a ProbeError when no
video stream exists. -/
def probe (streams : List FfStream) : Except ProbeError (Int × Int) :=
  match streams.find? (fun s => s.codecType == "video") with
  | some s => Except.ok (s.width, s.height)
  | none => Except.error ProbeError.noVideoStream

/-- Modelled from the spec: zero is an auto-detect sentinel for the requested
width and height, replaced by the probed native value before extraction. -/
def resolveDims (reqW reqH : Int) (native : Int × Int) : Int × Int :=
  (if reqW = 0 then native.1 else reqW, if reqH = 0 then native.2 else reqH)

/- ----------------------------------------------------------------------------
Order-theoretic facts about the Python string comparison.
---------------------------------------------------------------------------- -/

theorem charsLt_irrefl : ∀ l : List Char, charsLt l l = false
  | [] => rfl
  | a :: as => by
    simp only [charsLt, if_neg (lt_irrefl a)]
    exact charsLt_irrefl as

theorem charsLt_asymm : ∀ l1 l2 : List Char,
    charsLt l1 l2 = true → charsLt l2 l1 = false
  | [], [] => by simp [charsLt]
  | [], _ :: _ => by simp [charsLt]
  | _ :: _, [] => by simp [charsLt]
  | a :: as, b :: bs => by
    simp only [charsLt]
    rcases lt_trichotomy a b with h | h | h
    · intro _
      rw [if_neg (lt_asymm h), if_pos h]
    · subst h
      simp only [if_neg (lt_irrefl a)]
      exact charsLt_asymm as bs
    · rw [if_neg (lt_asymm h), if_pos h]
      exact fun hf => Bool.noConfusion hf

theorem charsLt_trans : ∀ l1 l2 l3 : List Char,
    charsLt l1 l2 = true → charsLt l2 l3 = true → charsLt l1 l3 = true
  | [], [], _ => by simp [charsLt]
  | [], _ :: _, [] => by simp [charsLt]
  | [], _ :: _, _ :: _ => by simp [charsLt]
  | _ :: _, [], _ => by simp [charsLt]
  | _ :: _, _ :: _, [] => by simp [charsLt]
  | a :: as, b :: bs, c :: cs => by
    simp only [charsLt]
    rcases lt_trichotomy a b with hab | hab | hab
    · rcases lt_trichotomy b c with hbc | hbc | hbc
      · intro _ _
        rw [if_pos (lt_trans hab hbc)]
      · subst hbc
        intro _ _
        rw [if_pos hab]
      · rw [if_neg (lt_asymm hbc), if_pos hbc]
        exact fun _ hf => Bool.noConfusion hf
    · subst hab
      simp only [if_neg (lt_irrefl a)]
      rcases lt_trichotomy a c with hac | hac | hac
      · intro _ _
        rw [if_pos hac]
      · subst hac
        simp only [if_neg (lt_irrefl a)]
        exact charsLt_trans as bs cs
      · rw [if_neg (lt_asymm hac), if_pos hac]
        exact fun _ hf => Bool.noConfusion hf
    · rw [if_neg (lt_asymm hab), if_pos hab]
      exact fun hf => Bool.noConfusion hf

theorem charsLt_eq_of_not_lt : ∀ l1 l2 : List Char,
    charsLt l1 l2 = false → charsLt l2 l1 = false → l1 = l2
  | [], [] => by simp
  | [], _ :: _ => by simp [charsLt]
  | _ :: _, [] => by simp [charsLt]
  | a :: as, b :: bs => by
    simp only [charsLt]
    intro h1 h2
    rcases lt_trichotomy a b with h | h | h
    · rw [if_pos h] at h1
      exact Bool.noConfusion h1
    · subst h
      simp only [if_neg (lt_irrefl a)] at h1 h2
      rw [charsLt_eq_of_not_lt as bs h1 h2]
    · rw [if_neg (lt_asymm h), if_pos h] at h2
      exact Bool.noConfusion h2

theorem charsLt_append_left : ∀ s t u : List Char,
    charsLt (s ++ t) (s ++ u) = charsLt t u
  | [], _, _ => rfl
  | a :: s, t, u => by
    simp only [List.cons_append, charsLt, if_neg (lt_irrefl a)]
    exact charsLt_append_left s t u

theorem charsLt_append_of_lt : ∀ l1 l2 t1 t2 : List Char,
    l1.length = l2.length → charsLt l1 l2 = true →
    charsLt (l1 ++ t1) (l2 ++ t2) = true
  | [], [], _, _ => by simp [charsLt]
  | [], _ :: _, _, _ => by simp
  | _ :: _, [], _, _ => by simp
  | a :: as, b :: bs, t1, t2 => by
    intro hlen
    simp only [List.length_cons, Nat.add_right_cancel_iff] at hlen
    simp only [List.cons_append, charsLt]
    rcases lt_trichotomy a b with h | h | h
    · intro _
      rw [if_pos h]
    · subst h
      simp only [if_neg (lt_irrefl a)]
      exact charsLt_append_of_lt as bs t1 t2 hlen
    · rw [if_neg (lt_asymm h), if_pos h]
      exact fun hf => Bool.noConfusion hf

theorem strLt_asymm {a b : String} (h : strLt a b = true) : strLt b a = false :=
  charsLt_asymm _ _ h

theorem strLt_trans {a b c : String} (h1 : strLt a b = true) (h2 : strLt b c = true) :
    strLt a c = true :=
  charsLt_trans _ _ _ h1 h2

theorem strEq_of_not_lt {a b : String} (h1 : strLt a b = false) (h2 : strLt b a = false) :
    a = b :=
  String.ext (charsLt_eq_of_not_lt _ _ h1 h2)

theorem strLe_trans {a b c : String} (h1 : strLe a b = true) (h2 : strLe b c = true) :
    strLe a c = true := by
  simp only [strLe, Bool.not_eq_true'] at h1 h2 ⊢
  by_contra hca
  rw [Bool.not_eq_false] at hca
  rcases hbc : strLt b c with _ | _
  · have heq := strEq_of_not_lt hbc h2
    subst heq
    rw [hca] at h1
    cases h1
  · have := strLt_trans hbc hca
    rw [this] at h1
    cases h1

theorem strLe_total (a b : String) : (strLe a b || strLe b a) = true := by
  simp only [strLe, Bool.or_eq_true, Bool.not_eq_true']
  rcases h : strLt b a with _ | _
  · exact Or.inl rfl
  · exact Or.inr (strLt_asymm h)

theorem strLt_of_strLe_of_ne {a b : String} (h1 : strLe a b = true) (h2 : a ≠ b) :
    strLt a b = true := by
  simp only [strLe, Bool.not_eq_true'] at h1
  rcases h : strLt a b with _ | _
  · exact absurd (strEq_of_not_lt h h1) h2
  · rfl

theorem strLt_prefix {a b : String} (p : String) (h : strLt a b = true) :
    strLt (p ++ a) (p ++ b) = true := by
  simp only [strLt, String.data_append, charsLt_append_left]
  exact h

/- ----------------------------------------------------------------------------
Facts about the filesystem model.
---------------------------------------------------------------------------- -/

theorem fsGet_cons (p : Path) (pe : Path × Entry) (fs : FS) :
    fsGet p (pe :: fs) = if pe.1 = p then some pe.2 else fsGet p fs := by
  by_cases h : pe.1 = p
  · have hb : (pe.1 == p) = true := beq_iff_eq.mpr h
    simp [fsGet, List.find?, hb, h]
  · have hb : (pe.1 == p) = false := beq_eq_false_iff_ne.mpr h
    simp [fsGet, List.find?, hb, h]

theorem fsGet_fsRemove {p q : Path} (h : q ≠ p) (fs : FS) :
    fsGet p (fsRemove q fs) = fsGet p fs := by
  induction fs with
  | nil => rfl
  | cons pe fs ih =>
    simp only [fsRemove]
    by_cases hk : pe.1 = q
    · rw [if_pos hk, ih, fsGet_cons, if_neg (by rw [hk]; exact h)]
    · rw [if_neg hk, fsGet_cons, fsGet_cons, ih]

theorem fsGet_fsSet (p q : Path) (e : Entry) (fs : FS) :
    fsGet p (fsSet q e fs) = if q = p then some e else fsGet p fs := by
  simp only [fsSet, fsGet_cons]
  by_cases h : q = p
  · simp [h]
  · simp [h, fsGet_fsRemove h fs]

theorem fsGet_eq_none_iff (p : Path) (fs : FS) :
    fsGet p fs = none ↔ ∀ pe ∈ fs, pe.1 ≠ p := by
  induction fs with
  | nil =>
    constructor
    · intro _ pe hpe
      cases hpe
    · intro _
      rfl
  | cons pe fs ih =>
    rw [fsGet_cons]
    by_cases h : pe.1 = p
    · rw [if_pos h]
      constructor
      · intro hf
        cases hf
      · intro hall
        exact absurd h (hall pe (List.mem_cons_self pe fs))
    · rw [if_neg h, ih]
      constructor
      · intro hall qe hqe
        rcases List.mem_cons.mp hqe with he | he
        · rw [he]
          exact h
        · exact hall qe he
      · intro hall qe hqe
        exact hall qe (List.mem_cons_of_mem pe hqe)

theorem mem_fsRemove {pe : Path × Entry} {q : Path} :
    ∀ {fs : FS}, pe ∈ fsRemove q fs → pe ∈ fs := by
  intro fs
  induction fs with
  | nil => intro h; cases h
  | cons qe fs ih =>
    simp only [fsRemove]
    by_cases hk : qe.1 = q
    · rw [if_pos hk]
      intro h
      exact List.mem_cons_of_mem qe (ih h)
    · rw [if_neg hk]
      intro h
      rcases List.mem_cons.mp h with h | h
      · exact h ▸ List.mem_cons_self qe fs
      · exact List.mem_cons_of_mem qe (ih h)

theorem mem_fsSet {pe : Path × Entry} {q : Path} {e : Entry} {fs : FS}
    (h : pe ∈ fsSet q e fs) : pe = (q, e) ∨ pe ∈ fs := by
  rcases List.mem_cons.mp h with h | h
  · exact Or.inl h
  · exact Or.inr (mem_fsRemove h)

theorem mem_rmtree {pe : Path × Entry} {d : Path} :
    ∀ {fs : FS}, pe ∈ rmtree d fs → pe ∈ fs ∧ isUnderB d pe.1 = false := by
  intro fs
  induction fs with
  | nil => intro h; cases h
  | cons qe fs ih =>
    simp only [rmtree]
    by_cases hk : isUnderB d qe.1 = true
    · rw [if_pos hk]
      intro h
      exact ⟨List.mem_cons_of_mem qe (ih h).1, (ih h).2⟩
    · rw [if_neg hk]
      intro h
      rcases List.mem_cons.mp h with h | h
      · subst h
        exact ⟨List.mem_cons_self pe fs, Bool.not_eq_true _ ▸ hk⟩
      · exact ⟨List.mem_cons_of_mem qe (ih h).1, (ih h).2⟩

theorem mem_writeFrames {d : Path} {pe : Path × Entry} :
    ∀ {l : List (String × String)} {fs : FS}, pe ∈ writeFrames d l fs →
      (∃ nc ∈ l, pe = (d ++ [nc.1], Entry.file nc.2)) ∨ pe ∈ fs := by
  intro l
  induction l with
  | nil => intro fs h; exact Or.inr h
  | cons nc l ih =>
    intro fs h
    rcases ih h with h2 | h2
    · rcases h2 with ⟨mc, hmc, hpe⟩
      exact Or.inl ⟨mc, List.mem_cons_of_mem nc hmc, hpe⟩
    · rcases mem_fsSet h2 with h3 | h3
      · exact Or.inl ⟨nc, List.mem_cons_self nc l, h3⟩
      · exact Or.inr h3

theorem reset_clean {d : Path} {fs : FS} (hcl : closedUnder d fs) :
    ∀ pe ∈ (if fsExists d fs then rmtree d fs else fs), isUnderB d pe.1 = false := by
  intro pe hpe
  rcases h : fsExists d fs with _ | _
  · rw [h] at hpe
    simp only [Bool.false_eq_true, if_neg] at hpe
    exact hcl h pe hpe
  · rw [h] at hpe
    simp only [if_pos] at hpe
    exact (mem_rmtree hpe).2

theorem childEntry_self (d : Path) (n c : String) :
    childEntry d (d ++ [n], Entry.file c) = some (n, c) := by
  have hdrop : (d ++ [n] : Path).drop d.length = [n] := List.drop_left d [n]
  have htake : (d ++ [n] : Path).take d.length = d := List.take_left d [n]
  simp [childEntry, hdrop, htake]

theorem childEntry_eq_some {d : Path} {p : Path} {e : Entry} {n c : String} :
    childEntry d (p, e) = some (n, c) ↔ p = d ++ [n] ∧ e = Entry.file c := by
  constructor
  · intro h
    unfold childEntry at h
    split at h
    · next c' f heq hdrop =>
      split at h
      · next htake =>
        injection h with h
        injection h with h1 h2
        subst h1
        subst h2
        refine ⟨?_, heq⟩
        conv_lhs => rw [← List.take_append_drop d.length p, htake, hdrop]
      · cases h
    · cases h
  · intro h
    rw [h.1, h.2]
    exact childEntry_self d n c

theorem childFiles_nil_of {outer d : Path} {fs : FS}
    (hfs : ∀ pe ∈ fs, isUnderB outer pe.1 = false)
    (hd : ∀ n : String, isUnderB outer (d ++ [n]) = true) :
    childFiles d fs = [] := by
  induction fs with
  | nil => rfl
  | cons pe fs ih =>
    simp only [childFiles]
    rcases hce : childEntry d pe with _ | nc
    · exact ih (fun qe hqe => hfs qe (List.mem_cons_of_mem pe hqe))
    · obtain ⟨p, e⟩ := pe
      obtain ⟨h1, _⟩ := childEntry_eq_some.mp hce
      have := hfs (p, e) (List.mem_cons_self _ fs)
      rw [h1, hd nc.1] at this
      cases this

theorem childFiles_fsRemove_child (d : Path) (n : String) :
    ∀ fs : FS, childFiles d (fsRemove (d ++ [n]) fs) =
      (childFiles d fs).filter (fun q => q.1 != n)
  | [] => rfl
  | pe :: fs => by
    simp only [fsRemove, childFiles]
    by_cases hk : pe.1 = d ++ [n]
    · rw [if_pos hk]
      rcases hce : childEntry d pe with _ | nc
      · exact childFiles_fsRemove_child d n fs
      · obtain ⟨p, e⟩ := pe
        obtain ⟨h1, _⟩ := childEntry_eq_some.mp hce
        have hn : nc.1 = n := by
          have := h1 ▸ hk
          simpa using List.append_cancel_left this
        rw [List.filter_cons]
        have : (nc.1 != n) = false := by simp [hn]
        rw [this]
        simp only [Bool.false_eq_true, if_neg]
        exact childFiles_fsRemove_child d n fs
    · rw [if_neg hk]
      simp only [childFiles]
      rcases hce : childEntry d pe with _ | nc
      · exact childFiles_fsRemove_child d n fs
      · obtain ⟨p, e⟩ := pe
        obtain ⟨h1, _⟩ := childEntry_eq_some.mp hce
        have hn : nc.1 ≠ n := by
          intro he
          exact hk (by rw [h1, he])
        rw [List.filter_cons]
        have : (nc.1 != n) = true := by simpa using hn
        rw [this]
        simp only [if_pos]
        rw [childFiles_fsRemove_child d n fs]

theorem childFiles_fsRemove_other (d p : Path) (hshape : ∀ n : String, p ≠ d ++ [n]) :
    ∀ fs : FS, childFiles d (fsRemove p fs) = childFiles d fs
  | [] => rfl
  | pe :: fs => by
    simp only [fsRemove, childFiles]
    by_cases hk : pe.1 = p
    · rw [if_pos hk]
      rcases hce : childEntry d pe with _ | nc
      · exact childFiles_fsRemove_other d p hshape fs
      · obtain ⟨q, e⟩ := pe
        obtain ⟨h1, _⟩ := childEntry_eq_some.mp hce
        exact absurd (hk ▸ h1 ▸ rfl : p = d ++ [nc.1]) (hshape nc.1)
    · rw [if_neg hk]
      simp only [childFiles]
      rcases hce : childEntry d pe with _ | nc
      · exact childFiles_fsRemove_other d p hshape fs
      · rw [childFiles_fsRemove_other d p hshape fs]

theorem childFiles_fsSet_child (d : Path) (n c : String) (fs : FS) :
    childFiles d (fsSet (d ++ [n]) (Entry.file c) fs) =
      (n, c) :: (childFiles d fs).filter (fun q => q.1 != n) := by
  simp only [fsSet, childFiles, childEntry_self]
  rw [childFiles_fsRemove_child]

theorem childFiles_fsSet_other (d p : Path) (e : Entry) (fs : FS)
    (hshape : ∀ m : String, p ≠ d ++ [m]) :
    childFiles d (fsSet p e fs) = childFiles d fs := by
  simp only [fsSet, childFiles]
  have h1 : childEntry d (p, e) = none := by
    rcases hce : childEntry d (p, e) with _ | nc
    · rfl
    · obtain ⟨h1, _⟩ := childEntry_eq_some.mp hce
      exact absurd h1 (hshape nc.1)
  rw [h1]
  exact childFiles_fsRemove_other d p hshape fs

theorem childFiles_writeFrames (d : Path) :
    ∀ (l : List (String × String)) (fs : FS),
      childFiles d (writeFrames d l fs) = writeLog l (childFiles d fs)
  | [], _ => rfl
  | nc :: l, fs => by
    have hstep : writeFrames d (nc :: l) fs =
        writeFrames d l (fsSet (d ++ [nc.1]) (Entry.file nc.2) fs) := rfl
    rw [hstep, childFiles_writeFrames d l, childFiles_fsSet_child]
    rfl

theorem writeLog_eq : ∀ (l m : List (String × String)),
    (l.map Prod.fst).Nodup →
    writeLog l m = l.reverse ++ m.filter (fun q => !((l.map Prod.fst).contains q.1)) := by
  intro l
  induction l with
  | nil =>
    intro m _
    simp only [writeLog, List.map_nil, List.reverse_nil, List.nil_append]
    have : ∀ x ∈ m, (!(([] : List String).contains x.1)) = true := by
      intro x _
      rfl
    rw [List.filter_congr this, List.filter_true]
  | cons nc l ih =>
    intro m hnd
    simp only [List.map_cons, List.nodup_cons] at hnd
    simp only [writeLog]
    rw [ih _ hnd.2]
    have hkeep : (!((l.map Prod.fst).contains nc.1)) = true := by
      simpa using hnd.1
    rw [List.filter_cons, hkeep, List.filter_filter]
    simp only [Bool.if_true_left, Bool.true_and]
    have hpred : ∀ x ∈ m,
        ((!((l.map Prod.fst).contains x.1)) && (x.1 != nc.1)) =
          (!(((nc :: l).map Prod.fst).contains x.1)) := by
      intro x _
      simp only [List.map_cons, List.contains_cons, Bool.not_or, bne]
      rw [Bool.and_comm]
    rw [List.filter_congr hpred]
    simp [List.reverse_cons, List.append_assoc]

theorem writeLog_nil_of_nodup {l : List (String × String)}
    (hnd : (l.map Prod.fst).Nodup) : writeLog l [] = l.reverse := by
  rw [writeLog_eq l [] hnd]
  simp


/- ----------------------------------------------------------------------------
Normal forms of the builder on the two outcomes of the external extraction.
---------------------------------------------------------------------------- -/

theorem isUnderB_append (E l : Path) : isUnderB E (E ++ l) = true := by
  simp [isUnderB, List.take_left]

theorem path_ne_of_length {p q : Path} (h : p.length ≠ q.length) : p ≠ q :=
  fun he => h (he ▸ rfl)

theorem build_err (a : BuildArgs) (E O : Path) (e : FfmpegError) (fs : FS) :
    create_bootanimation_zip a E O (Except.error e) fs =
      (fsSet (E ++ [a.partName]) Entry.dir
        (fsSet E Entry.dir (if fsExists E fs then rmtree E fs else fs)),
       Except.error e) := rfl

theorem childFiles_part_clean (a : BuildArgs) (E : Path) {fs : FS}
    (hcl : closedUnder E fs) :
    childFiles (E ++ [a.partName])
      (fsSet (E ++ [a.partName]) Entry.dir
        (fsSet E Entry.dir (if fsExists E fs then rmtree E fs else fs))) = [] := by
  rw [childFiles_fsSet_other _ _ _ _
    (fun m => path_ne_of_length (by simp))]
  rw [childFiles_fsSet_other _ _ _ _
    (fun m => path_ne_of_length (by simp))]
  exact childFiles_nil_of (reset_clean hcl)
    (fun n => by rw [List.append_assoc]; exact isUnderB_append E _)

theorem build_ok (a : BuildArgs) (E O : Path) (frames : List (String × String))
    (fs : FS) (hcl : closedUnder E fs) :
    create_bootanimation_zip a E O (Except.ok frames) fs =
      (fsSet O (Entry.zipFile (("desc.txt", descTxt a) ::
          (sortFiles (writeLog frames [])).map
            (fun nc => (a.partName ++ "/" ++ nc.1, nc.2))))
        (fsSet (E ++ ["desc.txt"]) (Entry.file (descTxt a))
          (writeFrames (E ++ [a.partName]) frames
            (fsSet (E ++ [a.partName]) Entry.dir
              (fsSet E Entry.dir
                (if fsExists E fs then rmtree E fs else fs))))),
       Except.ok O) := by
  have hfiles : childFiles (E ++ [a.partName])
      (fsSet (E ++ ["desc.txt"]) (Entry.file (descTxt a))
        (writeFrames (E ++ [a.partName]) frames
          (fsSet (E ++ [a.partName]) Entry.dir
            (fsSet E Entry.dir (if fsExists E fs then rmtree E fs else fs))))) =
      writeLog frames [] := by
    rw [childFiles_fsSet_other _ _ _ _
      (fun m => path_ne_of_length (by simp))]
    rw [childFiles_writeFrames, childFiles_part_clean a E hcl]
  show (let fs1 := if fsExists E fs then rmtree E fs else fs
    let fs2 := fsSet E Entry.dir fs1
    let partFolder := E ++ [a.partName]
    let fs3 := fsSet partFolder Entry.dir fs2
    let fs4 := writeFrames partFolder frames fs3
    let descPath := E ++ ["desc.txt"]
    let fs5 := fsSet descPath (Entry.file (descTxt a)) fs4
    let files := childFiles partFolder fs5
    let members := ("desc.txt", descTxt a) ::
      (sortFiles files).map (fun nc => (a.partName ++ "/" ++ nc.1, nc.2))
    let fs6 := fsSet O (Entry.zipFile members) fs5
    (fs6, Except.ok O)) = _
  simp only []
  rw [hfiles]

/- ----------------------------------------------------------------------------
Facts about the printf digit rendering and the frame names.
---------------------------------------------------------------------------- -/

theorem decDigitsAux_succ (fuel n : Nat) :
    decDigitsAux (fuel + 1) n = if n < 10 then [Nat.digitChar n]
      else decDigitsAux fuel (n / 10) ++ [Nat.digitChar (n % 10)] := rfl

theorem decDigitsFixed_succ (k n : Nat) :
    decDigitsFixed (k + 1) n =
      decDigitsFixed k (n / 10) ++ [Nat.digitChar (n % 10)] := rfl

theorem decDigitsAux_irrel : ∀ f1 f2 n : Nat, n < f1 → n < f2 →
    decDigitsAux f1 n = decDigitsAux f2 n := by
  intro f1
  induction f1 with
  | zero => intro f2 n h1; exact absurd h1 (Nat.not_lt_zero n)
  | succ f1 ih =>
    intro f2 n h1 h2
    cases f2 with
    | zero => exact absurd h2 (Nat.not_lt_zero n)
    | succ f2 =>
      rw [decDigitsAux_succ, decDigitsAux_succ]
      by_cases h : n < 10
      · rw [if_pos h, if_pos h]
      · rw [if_neg h, if_neg h, ih f2 (n / 10) (by omega) (by omega)]

theorem decDigits_eq (n : Nat) :
    decDigits n = if n < 10 then [Nat.digitChar n]
      else decDigits (n / 10) ++ [Nat.digitChar (n % 10)] := by
  show decDigitsAux (n + 1) n = _
  rw [decDigitsAux_succ]
  by_cases h : n < 10
  · rw [if_pos h, if_pos h]
  · rw [if_neg h, if_neg h,
      decDigitsAux_irrel n (n / 10 + 1) (n / 10) (by omega) (by omega)]
    rfl

theorem decDigitsFixed_length (k : Nat) : ∀ n, (decDigitsFixed k n).length = k := by
  induction k with
  | zero => intro n; rfl
  | succ k ih =>
    intro n
    rw [decDigitsFixed_succ, List.length_append, ih]
    rfl

theorem decDigitsFixed_zero (k : Nat) : decDigitsFixed k 0 = List.replicate k '0' := by
  induction k with
  | zero => rfl
  | succ k ih =>
    rw [decDigitsFixed_succ, Nat.zero_div, ih, List.replicate_succ']
    rfl

theorem padEq : ∀ k : Nat, 0 < k → ∀ n : Nat, n < 10 ^ k →
    List.replicate (k - (decDigits n).length) '0' ++ decDigits n =
      decDigitsFixed k n := by
  intro k
  induction k with
  | zero => intro h; exact absurd h (lt_irrefl 0)
  | succ k ih =>
    intro _ n hn
    rw [decDigitsFixed_succ]
    by_cases h : n < 10
    · have hd : n / 10 = 0 := by omega
      have hm : n % 10 = n := by omega
      rw [decDigits_eq n, if_pos h, hd, hm, decDigitsFixed_zero]
      show List.replicate (k + 1 - 1) '0' ++ [Nat.digitChar n] = _
      rw [Nat.add_sub_cancel]
    · have hk : 0 < k := by
        rcases Nat.eq_zero_or_pos k with hz | hp
        · subst hz
          rw [pow_one] at hn
          omega
        · exact hp
      have hdiv : n / 10 < 10 ^ k := by
        rw [pow_succ] at hn
        omega
      rw [decDigits_eq n, if_neg h, List.length_append, List.length_singleton]
      have harith : k + 1 - ((decDigits (n / 10)).length + 1) =
          k - (decDigits (n / 10)).length := by omega
      rw [harith, ← ih hk (n / 10) hdiv, ← List.append_assoc]

theorem digitChar_mono : ∀ x : Nat, x < 10 → ∀ y : Nat, y < 10 → x < y →
    Nat.digitChar x < Nat.digitChar y := by decide

theorem decDigitsFixed_mono : ∀ k a b : Nat, a < b → b < 10 ^ k →
    charsLt (decDigitsFixed k a) (decDigitsFixed k b) = true := by
  intro k
  induction k with
  | zero =>
    intro a b hab hb
    rw [pow_zero] at hb
    omega
  | succ k ih =>
    intro a b hab hb
    have hbdiv : b / 10 < 10 ^ k := by
      rw [pow_succ] at hb
      omega
    rw [decDigitsFixed_succ, decDigitsFixed_succ]
    rcases Nat.lt_or_ge (a / 10) (b / 10) with hdiv | hdiv
    · exact charsLt_append_of_lt _ _ _ _
        (by rw [decDigitsFixed_length, decDigitsFixed_length])
        (ih (a / 10) (b / 10) hdiv hbdiv)
    · have heq : a / 10 = b / 10 := by omega
      have hmod : a % 10 < b % 10 := by omega
      rw [heq, charsLt_append_left]
      simp only [charsLt]
      rw [if_pos (digitChar_mono _ (by omega) _ (by omega) hmod)]

theorem frameName_mono {i j : Nat} (hij : i < j) (hj : j ≤ 9999) :
    strLt (frameName i) (frameName j) = true := by
  have hpad : ∀ n : Nat, n ≤ 9999 → (printfPad 4 n).data = decDigitsFixed 4 n := by
    intro n hn
    show List.replicate (4 - (decDigits n).length) '0' ++ decDigits n = _
    exact padEq 4 (by omega) n (by norm_num; omega)
  have hdata : ∀ n : Nat, (frameName n).data =
      "frame_".data ++ ((printfPad 4 n).data ++ ".png".data) := by
    intro n
    show (("frame_" ++ printfPad 4 n) ++ ".png").data = _
    rw [String.data_append, String.data_append, List.append_assoc]
  show charsLt (frameName i).data (frameName j).data = true
  rw [hdata, hdata, charsLt_append_left, hpad i (by omega), hpad j hj]
  exact charsLt_append_of_lt _ _ _ _
    (by rw [decDigitsFixed_length, decDigitsFixed_length])
    (decDigitsFixed_mono 4 i j hij (by norm_num; omega))

/- ----------------------------------------------------------------------------
Correctness of the sorting step.
---------------------------------------------------------------------------- -/

theorem insortBy_perm (x : String × String) :
    ∀ l : List (String × String), (insortBy x l).Perm (x :: l)
  | [] => List.Perm.refl _
  | y :: l => by
    simp only [insortBy]
    by_cases h : strLe x.1 y.1 = true
    · rw [if_pos h]
    · rw [if_neg h]
      exact ((insortBy_perm x l).cons y).trans (List.Perm.swap x y l)

theorem sortFiles_perm : ∀ l : List (String × String), (sortFiles l).Perm l
  | [] => List.Perm.refl _
  | x :: l => (insortBy_perm x (sortFiles l)).trans ((sortFiles_perm l).cons x)

theorem insortBy_sorted {x : String × String} :
    ∀ {l : List (String × String)},
      List.Pairwise (fun a b => strLe a.1 b.1 = true) l →
      List.Pairwise (fun a b => strLe a.1 b.1 = true) (insortBy x l)
  | [], _ => List.Pairwise.cons (fun z hz => absurd hz (List.not_mem_nil z))
      List.Pairwise.nil
  | y :: l, h => by
    simp only [insortBy]
    by_cases hxy : strLe x.1 y.1 = true
    · rw [if_pos hxy]
      rcases List.pairwise_cons.mp h with ⟨hy, _⟩
      refine List.Pairwise.cons ?_ h
      intro z hz
      rcases List.mem_cons.mp hz with he | hm
      · rw [he]
        exact hxy
      · exact strLe_trans hxy (hy z hm)
    · rw [if_neg hxy]
      have hyx : strLe y.1 x.1 = true := by
        have h2 : strLe x.1 y.1 = false := by
          rcases hb : strLe x.1 y.1 with _ | _
          · rfl
          · exact absurd hb hxy
        have h1 : strLt y.1 x.1 = true := by
          rcases hlt : strLt y.1 x.1 with _ | _
          · rw [strLe, hlt] at h2
            cases h2
          · rfl
        simp [strLe, strLt_asymm h1]
      rcases List.pairwise_cons.mp h with ⟨hy, hl⟩
      refine List.Pairwise.cons ?_ (insortBy_sorted hl)
      intro z hz
      rcases List.mem_cons.mp ((insortBy_perm x l).mem_iff.mp hz) with he | hm
      · rw [he]
        exact hyx
      · exact hy z hm

theorem sortFiles_sorted :
    ∀ l : List (String × String),
      List.Pairwise (fun a b => strLe a.1 b.1 = true) (sortFiles l)
  | [] => List.Pairwise.nil
  | _ :: l => insortBy_sorted (sortFiles_sorted l)

theorem sortFiles_strict {l : List (String × String)}
    (hnd : (l.map Prod.fst).Nodup) :
    List.Pairwise (fun a b => strLt a.1 b.1 = true) (sortFiles l) := by
  have hperm := sortFiles_perm l
  have hnd2 : ((sortFiles l).map Prod.fst).Nodup :=
    hnd.perm (hperm.symm.map Prod.fst)
  have hne : List.Pairwise (fun a b : String × String => a.1 ≠ b.1) (sortFiles l) :=
    List.pairwise_map.mp hnd2
  exact ((sortFiles_sorted l).and hne).imp
    (fun h => strLt_of_strLe_of_ne h.1 h.2)

theorem members_tail_sorted (pn : String) {frames : List (String × String)}
    (hnd : (frames.map Prod.fst).Nodup) :
    List.Pairwise (fun x y => strLt x.1 y.1 = true)
      ((sortFiles (writeLog frames [])).map
        (fun nc => (pn ++ "/" ++ nc.1, nc.2))) := by
  have hnd2 : ((writeLog frames []).map Prod.fst).Nodup := by
    rw [writeLog_nil_of_nodup hnd, List.map_reverse]
    exact List.nodup_reverse.mpr hnd
  rw [List.pairwise_map]
  exact (sortFiles_strict hnd2).imp (fun h => strLt_prefix _ h)

theorem members_tail_names {pn : String} {frames : List (String × String)}
    (hnd : (frames.map Prod.fst).Nodup) :
    (((sortFiles (writeLog frames [])).map
        (fun nc => (pn ++ "/" ++ nc.1, nc.2))).map Prod.fst).Perm
      (frames.map (fun nc => pn ++ "/" ++ nc.1)) := by
  rw [List.map_map]
  have h1 : (sortFiles (writeLog frames [])).Perm frames := by
    refine (sortFiles_perm _).trans ?_
    rw [writeLog_nil_of_nodup hnd]
    exact List.reverse_perm frames
  exact h1.map _

/- ----------------------------------------------------------------------------
Lookup facts through the builder steps.
---------------------------------------------------------------------------- -/

theorem fsGet_isSome_mem {p : Path} {fs : FS} {e : Entry}
    (h : fsGet p fs = some e) : (p, e) ∈ fs := by
  induction fs with
  | nil => cases h
  | cons pe fs ih =>
    rw [fsGet_cons] at h
    by_cases hk : pe.1 = p
    · rw [if_pos hk] at h
      injection h with h
      refine List.mem_cons.mpr (Or.inl ?_)
      rw [← hk, ← h]
    · rw [if_neg hk] at h
      exact List.mem_cons_of_mem pe (ih h)

theorem fsGet_writeFrames_other {d p : Path} (hshape : ∀ n : String, p ≠ d ++ [n]) :
    ∀ (l : List (String × String)) (fs : FS),
      fsGet p (writeFrames d l fs) = fsGet p fs
  | [], _ => rfl
  | nc :: l, fs => by
    show fsGet p (writeFrames d l (fsSet (d ++ [nc.1]) (Entry.file nc.2) fs)) = _
    rw [fsGet_writeFrames_other hshape l _, fsGet_fsSet,
      if_neg (fun he => hshape nc.1 he.symm)]

theorem fsGet_writeFrames_not_key {d : Path} {n : String} :
    ∀ {l : List (String × String)} {fs : FS}, n ∉ l.map Prod.fst →
      fsGet (d ++ [n]) (writeFrames d l fs) = fsGet (d ++ [n]) fs := by
  intro l
  induction l with
  | nil => intro fs _; rfl
  | cons nc l ih =>
    intro fs hn
    rw [List.map_cons] at hn
    have hn1 : n ≠ nc.1 := by
      intro he
      exact hn (by rw [he]; exact List.mem_cons_self _ _)
    have hn2 : n ∉ l.map Prod.fst := fun hm => hn (List.mem_cons_of_mem _ hm)
    show fsGet (d ++ [n]) (writeFrames d l (fsSet (d ++ [nc.1]) (Entry.file nc.2) fs)) = _
    rw [ih hn2, fsGet_fsSet, if_neg]
    intro he
    exact hn1 (by simpa using (List.append_cancel_left he).symm)

theorem fsGet_writeFrames_mem {d : Path} :
    ∀ {l : List (String × String)} {fs : FS} {n c : String},
      (l.map Prod.fst).Nodup → (n, c) ∈ l →
      fsGet (d ++ [n]) (writeFrames d l fs) = some (Entry.file c) := by
  intro l
  induction l with
  | nil => intro fs n c _ hm; cases hm
  | cons nc l ih =>
    intro fs n c hnd hm
    rw [List.map_cons, List.nodup_cons] at hnd
    rcases List.mem_cons.mp hm with he | hm2
    · have hn : nc.1 = n := by rw [← he]
      have hc : nc.2 = c := by rw [← he]
      show fsGet (d ++ [n])
        (writeFrames d l (fsSet (d ++ [nc.1]) (Entry.file nc.2) fs)) = _
      rw [hn, hc, fsGet_writeFrames_not_key (hn ▸ hnd.1), fsGet_fsSet, if_pos rfl]
    · exact ih hnd.2 hm2

theorem fsGet_rmtree_under {d p : Path} (h : isUnderB d p = true) :
    ∀ fs : FS, fsGet p (rmtree d fs) = none
  | [] => rfl
  | pe :: fs => by
    simp only [rmtree]
    by_cases hk : isUnderB d pe.1 = true
    · rw [if_pos hk]
      exact fsGet_rmtree_under h fs
    · rw [if_neg hk, fsGet_cons, if_neg, fsGet_rmtree_under h fs]
      intro he
      rw [he] at hk
      exact hk h

theorem fsGet_rmtree_none {d p : Path} {fs : FS} (h : fsGet p fs = none) :
    fsGet p (rmtree d fs) = none := by
  rw [fsGet_eq_none_iff] at h ⊢
  intro pe hpe
  exact h pe (mem_rmtree hpe).1

theorem fsExists_build_ok (a : BuildArgs) (E O : Path)
    (frames : List (String × String)) (fs : FS) (hcl : closedUnder E fs) :
    fsExists E (create_bootanimation_zip a E O (Except.ok frames) fs).1 = true := by
  rw [build_ok a E O frames fs hcl]
  simp only [fsExists]
  by_cases hOE : O = E
  · rw [fsGet_fsSet, if_pos hOE]
    rfl
  · rw [fsGet_fsSet, if_neg hOE, fsGet_fsSet,
      if_neg (path_ne_of_length (by simp)),
      fsGet_writeFrames_other (fun n => path_ne_of_length (by simp)),
      fsGet_fsSet, if_neg (path_ne_of_length (by simp)),
      fsGet_fsSet, if_pos rfl]
    rfl

theorem closedUnder_build_ok (a : BuildArgs) (E O : Path)
    (frames : List (String × String)) (fs : FS) (hcl : closedUnder E fs) :
    closedUnder E (create_bootanimation_zip a E O (Except.ok frames) fs).1 := by
  intro h
  rw [fsExists_build_ok a E O frames fs hcl] at h
  cases h

/- ----------------------------------------------------------------------------
The claims.
---------------------------------------------------------------------------- -/

/-- C1: for every successful call to the archive builder, member insertion
order in the produced archive is exactly the descriptor member desc.txt first,
then every frame member in ascending lexicographic filename order (the frame
files carry distinct names, being a directory listing). -/
theorem claim_C1_member_order (a : BuildArgs) (E O : Path)
    (frames : List (String × String)) (fs : FS)
    (hcl : closedUnder E fs) (hnd : (frames.map Prod.fst).Nodup) :
    ∃ members : List (String × String),
      fsGet O (create_bootanimation_zip a E O (Except.ok frames) fs).1 =
        some (Entry.zipFile members) ∧
      (create_bootanimation_zip a E O (Except.ok frames) fs).2 = Except.ok O ∧
      members.head? = some ("desc.txt", descTxt a) ∧
      List.Pairwise (fun x y => strLt x.1 y.1 = true) members.tail := by
  rw [build_ok a E O frames fs hcl]
  refine ⟨("desc.txt", descTxt a) ::
    (sortFiles (writeLog frames [])).map
      (fun nc => (a.partName ++ "/" ++ nc.1, nc.2)), ?_, rfl, rfl, ?_⟩
  · rw [fsGet_fsSet, if_pos rfl]
  · exact members_tail_sorted a.partName hnd

theorem claim_C1_witness :
    closedUnder ["w"] ([] : FS) ∧
    ([("b", "x"), ("a", "y")].map Prod.fst).Nodup ∧
    ∃ members : List (String × String),
      fsGet ["z"] (create_bootanimation_zip ⟨1, 2, 3, "p", 0, 0⟩ ["w"] ["z"]
          (Except.ok [("b", "x"), ("a", "y")]) []).1 =
        some (Entry.zipFile members) ∧
      (create_bootanimation_zip ⟨1, 2, 3, "p", 0, 0⟩ ["w"] ["z"]
          (Except.ok [("b", "x"), ("a", "y")]) []).2 = Except.ok ["z"] ∧
      members.head? = some ("desc.txt", descTxt ⟨1, 2, 3, "p", 0, 0⟩) ∧
      List.Pairwise (fun x y => strLt x.1 y.1 = true) members.tail :=
  ⟨by decide, by decide,
    claim_C1_member_order ⟨1, 2, 3, "p", 0, 0⟩ ["w"] ["z"]
      [("b", "x"), ("a", "y")] [] (by decide) (by decide)⟩

/-- C2: for every successful call to the archive builder with parameters
width, height, fps, loop count, pause and part name, the content of the
desc.txt member is exactly the two-line string
width-space-height-space-fps-newline, then p-space-loop-space-pause-space-part
with a trailing newline, and nothing else. -/
theorem claim_C2_desc_content (a : BuildArgs) (E O : Path)
    (frames : List (String × String)) (fs : FS) (hcl : closedUnder E fs) :
    ∃ members : List (String × String),
      fsGet O (create_bootanimation_zip a E O (Except.ok frames) fs).1 =
        some (Entry.zipFile members) ∧
      members.head? = some ("desc.txt",
        toString a.width ++ " " ++ toString a.height ++ " " ++ toString a.fps
          ++ "\n" ++ "p " ++ toString a.loopCount ++ " " ++ toString a.pause
          ++ " " ++ a.partName ++ "\n") := by
  rw [build_ok a E O frames fs hcl]
  exact ⟨("desc.txt", descTxt a) ::
    (sortFiles (writeLog frames [])).map
      (fun nc => (a.partName ++ "/" ++ nc.1, nc.2)),
    by rw [fsGet_fsSet, if_pos rfl], rfl⟩

theorem claim_C2_witness :
    closedUnder ["w"] ([] : FS) ∧
    ∃ members : List (String × String),
      fsGet ["z"] (create_bootanimation_zip ⟨1080, 1920, 30, "part0", 0, 0⟩
          ["w"] ["z"] (Except.ok [("a", "y")]) []).1 =
        some (Entry.zipFile members) ∧
      members.head? = some ("desc.txt",
        toString (1080 : Int) ++ " " ++ toString (1920 : Int) ++ " "
          ++ toString (30 : Int) ++ "\n" ++ "p " ++ toString (0 : Int) ++ " "
          ++ toString (0 : Int) ++ " " ++ "part0" ++ "\n") :=
  ⟨by decide,
    claim_C2_desc_content ⟨1080, 1920, 30, "part0", 0, 0⟩ ["w"] ["z"]
      [("a", "y")] [] (by decide)⟩

/-- C3: for every successful call to the archive builder, the member set of
the produced archive is exactly desc.txt together with one member
partName/frameFileName per extracted frame file, with no other member (stated
as a permutation of the member name list, the frame names being distinct). -/
theorem claim_C3_member_set (a : BuildArgs) (E O : Path)
    (frames : List (String × String)) (fs : FS)
    (hcl : closedUnder E fs) (hnd : (frames.map Prod.fst).Nodup) :
    ∃ members : List (String × String),
      fsGet O (create_bootanimation_zip a E O (Except.ok frames) fs).1 =
        some (Entry.zipFile members) ∧
      (create_bootanimation_zip a E O (Except.ok frames) fs).2 = Except.ok O ∧
      (members.map Prod.fst).Perm
        ("desc.txt" :: frames.map (fun nc => a.partName ++ "/" ++ nc.1)) := by
  rw [build_ok a E O frames fs hcl]
  refine ⟨("desc.txt", descTxt a) ::
    (sortFiles (writeLog frames [])).map
      (fun nc => (a.partName ++ "/" ++ nc.1, nc.2)), ?_, rfl, ?_⟩
  · rw [fsGet_fsSet, if_pos rfl]
  · rw [List.map_cons]
    exact (members_tail_names hnd).cons "desc.txt"

theorem claim_C3_witness :
    closedUnder ["w"] ([] : FS) ∧
    ([("b", "x"), ("a", "y")].map Prod.fst).Nodup ∧
    ∃ members : List (String × String),
      fsGet ["z"] (create_bootanimation_zip ⟨1, 2, 3, "p", 0, 0⟩ ["w"] ["z"]
          (Except.ok [("b", "x"), ("a", "y")]) []).1 =
        some (Entry.zipFile members) ∧
      (create_bootanimation_zip ⟨1, 2, 3, "p", 0, 0⟩ ["w"] ["z"]
          (Except.ok [("b", "x"), ("a", "y")]) []).2 = Except.ok ["z"] ∧
      (members.map Prod.fst).Perm
        ("desc.txt" :: [("b", "x"), ("a", "y")].map (fun nc => "p" ++ "/" ++ nc.1)) :=
  ⟨by decide, by decide,
    claim_C3_member_set ⟨1, 2, 3, "p", 0, 0⟩ ["w"] ["z"]
      [("b", "x"), ("a", "y")] [] (by decide) (by decide)⟩

/-- C5 counterexample: with an extraction outcome of zero frames the builder
does not fail and does create an archive at the output path, containing only
the descriptor, so the claimed ExtractionError failure does not occur. -/
theorem claim_C5_counterexample :
    (create_bootanimation_zip ⟨1080, 1920, 30, "part0", 0, 0⟩ ["frames"]
        ["bootanimation.zip"] (Except.ok []) []).2 =
      Except.ok ["bootanimation.zip"] ∧
    fsGet ["bootanimation.zip"]
        (create_bootanimation_zip ⟨1080, 1920, 30, "part0", 0, 0⟩ ["frames"]
          ["bootanimation.zip"] (Except.ok []) []).1 =
      some (Entry.zipFile [("desc.txt", "1080 1920 30\np 0 0 part0\n")]) :=
  ⟨rfl, rfl⟩

/-- C5: [corrected] if the extraction step completes with zero frame files in
the part subdirectory, the archive builder does not fail: it succeeds and
creates at the output path an archive whose only member is desc.txt (the
source performs no frame-count check and has no ExtractionError). -/
theorem claim_C5_zero_frames (a : BuildArgs) (E O : Path) (fs : FS)
    (hcl : closedUnder E fs) :
    (create_bootanimation_zip a E O (Except.ok []) fs).2 = Except.ok O ∧
    fsGet O (create_bootanimation_zip a E O (Except.ok []) fs).1 =
      some (Entry.zipFile [("desc.txt", descTxt a)]) := by
  rw [build_ok a E O [] fs hcl]
  refine ⟨rfl, ?_⟩
  rw [fsGet_fsSet, if_pos rfl]
  rfl

theorem claim_C5_witness :
    closedUnder ["w"] ([] : FS) ∧
    ((create_bootanimation_zip ⟨1, 2, 3, "p", 0, 0⟩ ["w"] ["z"]
        (Except.ok []) []).2 = Except.ok ["z"] ∧
      fsGet ["z"] (create_bootanimation_zip ⟨1, 2, 3, "p", 0, 0⟩ ["w"] ["z"]
          (Except.ok []) []).1 =
        some (Entry.zipFile [("desc.txt", descTxt ⟨1, 2, 3, "p", 0, 0⟩)])) :=
  ⟨by decide, claim_C5_zero_frames ⟨1, 2, 3, "p", 0, 0⟩ ["w"] ["z"] [] (by decide)⟩

/-- C6: running the archive builder twice with the same work directory and the
same parameters produces identical archives, given the same (deterministic)
extraction outcome for both runs; the second run starts from the filesystem
state the first run left behind. -/
theorem claim_C6_idempotent (a : BuildArgs) (E O : Path)
    (frames : List (String × String)) (fs : FS) (hcl : closedUnder E fs) :
    ∃ members : List (String × String),
      fsGet O (create_bootanimation_zip a E O (Except.ok frames) fs).1 =
        some (Entry.zipFile members) ∧
      fsGet O (create_bootanimation_zip a E O (Except.ok frames)
          (create_bootanimation_zip a E O (Except.ok frames) fs).1).1 =
        some (Entry.zipFile members) ∧
      (create_bootanimation_zip a E O (Except.ok frames) fs).2 = Except.ok O ∧
      (create_bootanimation_zip a E O (Except.ok frames)
          (create_bootanimation_zip a E O (Except.ok frames) fs).1).2 =
        Except.ok O := by
  have hcl2 := closedUnder_build_ok a E O frames fs hcl
  have h2 := build_ok a E O frames
    (create_bootanimation_zip a E O (Except.ok frames) fs).1 hcl2
  refine ⟨("desc.txt", descTxt a) ::
    (sortFiles (writeLog frames [])).map
      (fun nc => (a.partName ++ "/" ++ nc.1, nc.2)), ?_, ?_, ?_, ?_⟩
  · rw [build_ok a E O frames fs hcl, fsGet_fsSet, if_pos rfl]
  · rw [h2, fsGet_fsSet, if_pos rfl]
  · rw [build_ok a E O frames fs hcl]
  · rw [h2]

theorem claim_C6_witness :
    closedUnder ["w"] ([] : FS) ∧
    ∃ members : List (String × String),
      fsGet ["z"] (create_bootanimation_zip ⟨1, 2, 3, "p", 0, 0⟩ ["w"] ["z"]
          (Except.ok [("a", "y")]) []).1 =
        some (Entry.zipFile members) ∧
      fsGet ["z"] (create_bootanimation_zip ⟨1, 2, 3, "p", 0, 0⟩ ["w"] ["z"]
          (Except.ok [("a", "y")])
          (create_bootanimation_zip ⟨1, 2, 3, "p", 0, 0⟩ ["w"] ["z"]
            (Except.ok [("a", "y")]) []).1).1 =
        some (Entry.zipFile members) ∧
      (create_bootanimation_zip ⟨1, 2, 3, "p", 0, 0⟩ ["w"] ["z"]
          (Except.ok [("a", "y")]) []).2 = Except.ok ["z"] ∧
      (create_bootanimation_zip ⟨1, 2, 3, "p", 0, 0⟩ ["w"] ["z"]
          (Except.ok [("a", "y")])
          (create_bootanimation_zip ⟨1, 2, 3, "p", 0, 0⟩ ["w"] ["z"]
            (Except.ok [("a", "y")]) []).1).2 = Except.ok ["z"] :=
  ⟨by decide, claim_C6_idempotent ⟨1, 2, 3, "p", 0, 0⟩ ["w"] ["z"]
    [("a", "y")] [] (by decide)⟩

/-- C9: every error arising during a conversion attempt is terminal for that
attempt: the builder surfaces the ffmpeg error unchanged to its caller without
any internal retry, and the api route translates it into a 500 failure
response instead of resuming the build. -/
theorem claim_C9_error_terminal (a : BuildArgs) (E O : Path) (e : FfmpegError)
    (fs : FS) (url : String) :
    (create_bootanimation_zip a E O (Except.error e) fs).2 = Except.error e ∧
    (api_convert a E O (Except.error e) fs url).2 =
      ⟨500, "ffmpeg-python failed: " ++ e.message⟩ ∧
    (api_convert a E O (Except.error e) fs url).2.status ≠ 200 :=
  ⟨rfl, rfl, (by decide : (500 : Nat) ≠ 200)⟩

/-- C10: if the frame extraction itself fails, the builder terminates before
descriptor emission and packing: the resulting state is exactly the reset of
the scratch directory plus the empty part subdirectory, the error propagates,
no desc.txt file exists in the scratch directory, and no archive file exists
at the output path. -/
theorem claim_C10_failure_state (a : BuildArgs) (E O : Path) (e : FfmpegError)
    (fs : FS)
    (hdesc : fsExists E fs = false → fsGet (E ++ ["desc.txt"]) fs = none)
    (hout : fsGet O fs = none) :
    (create_bootanimation_zip a E O (Except.error e) fs).1 =
      fsSet (E ++ [a.partName]) Entry.dir
        (fsSet E Entry.dir (if fsExists E fs then rmtree E fs else fs)) ∧
    (create_bootanimation_zip a E O (Except.error e) fs).2 = Except.error e ∧
    (∀ c : String, fsGet (E ++ ["desc.txt"])
        (create_bootanimation_zip a E O (Except.error e) fs).1 ≠
      some (Entry.file c)) ∧
    (∀ ms : List (String × String), fsGet O
        (create_bootanimation_zip a E O (Except.error e) fs).1 ≠
      some (Entry.zipFile ms)) := by
  rw [build_err a E O e fs]
  refine ⟨rfl, rfl, ?_, ?_⟩
  · intro c
    by_cases hpf : E ++ [a.partName] = E ++ ["desc.txt"]
    · rw [fsGet_fsSet, if_pos hpf]
      intro h
      cases h
    · rw [fsGet_fsSet, if_neg hpf, fsGet_fsSet,
        if_neg (path_ne_of_length (by simp))]
      rcases hex : fsExists E fs with _ | _
      · rw [if_neg Bool.false_ne_true, hdesc hex]
        intro h
        cases h
      · rw [if_pos rfl, fsGet_rmtree_under (isUnderB_append E ["desc.txt"]) fs]
        intro h
        cases h
  · intro ms
    by_cases hpf : E ++ [a.partName] = O
    · rw [fsGet_fsSet, if_pos hpf]
      intro h
      cases h
    · rw [fsGet_fsSet, if_neg hpf]
      by_cases hEO : E = O
      · rw [fsGet_fsSet, if_pos hEO]
        intro h
        cases h
      · rw [fsGet_fsSet, if_neg hEO]
        rcases hex : fsExists E fs with _ | _
        · rw [if_neg Bool.false_ne_true, hout]
          intro h
          cases h
        · rw [if_pos rfl, fsGet_rmtree_none hout]
          intro h
          cases h

theorem claim_C10_witness :
    (fsExists ["w"] ([] : FS) = false → fsGet (["w"] ++ ["desc.txt"]) ([] : FS) = none) ∧
    fsGet ["z"] ([] : FS) = none ∧
    ((create_bootanimation_zip ⟨1, 2, 3, "p", 0, 0⟩ ["w"] ["z"]
        (Except.error (FfmpegError.failure "boom")) []).1 =
      fsSet (["w"] ++ ["p"]) Entry.dir
        (fsSet ["w"] Entry.dir
          (if fsExists ["w"] ([] : FS) then rmtree ["w"] ([] : FS) else [])) ∧
    (create_bootanimation_zip ⟨1, 2, 3, "p", 0, 0⟩ ["w"] ["z"]
        (Except.error (FfmpegError.failure "boom")) []).2 =
      Except.error (FfmpegError.failure "boom") ∧
    (∀ c : String, fsGet (["w"] ++ ["desc.txt"])
        (create_bootanimation_zip ⟨1, 2, 3, "p", 0, 0⟩ ["w"] ["z"]
          (Except.error (FfmpegError.failure "boom")) []).1 ≠
      some (Entry.file c)) ∧
    (∀ ms : List (String × String), fsGet ["z"]
        (create_bootanimation_zip ⟨1, 2, 3, "p", 0, 0⟩ ["w"] ["z"]
          (Except.error (FfmpegError.failure "boom")) []).1 ≠
      some (Entry.zipFile ms))) :=
  ⟨by decide, by decide,
    claim_C10_failure_state ⟨1, 2, 3, "p", 0, 0⟩ ["w"] ["z"]
      (FfmpegError.failure "boom") [] (by decide) (by decide)⟩

/-- C4: when the scratch directory pre-exists with arbitrary contents, the
builder removes it entirely and recreates it, so that after a successful build
the scratch directory contains only the current desc.txt and the part
subdirectory with the frame files of this run: every path below the scratch
directory that is present afterwards is the scratch directory itself, the part
folder, desc.txt, or a current frame file, and desc.txt and all current frames
are indeed present. -/
theorem claim_C4_scratch_reset (a : BuildArgs) (E O : Path)
    (frames : List (String × String)) (fs : FS)
    (hcl : closedUnder E fs) (hnd : (frames.map Prod.fst).Nodup)
    (hO : isUnderB E O = false) :
    (create_bootanimation_zip a E O (Except.ok frames) fs).2 = Except.ok O ∧
    fsGet (E ++ ["desc.txt"])
        (create_bootanimation_zip a E O (Except.ok frames) fs).1 =
      some (Entry.file (descTxt a)) ∧
    (∀ nc ∈ frames, fsGet ((E ++ [a.partName]) ++ [nc.1])
        (create_bootanimation_zip a E O (Except.ok frames) fs).1 =
      some (Entry.file nc.2)) ∧
    (∀ p : Path, isUnderB E p = true →
      (fsGet p (create_bootanimation_zip a E O (Except.ok frames) fs).1).isSome
          = true →
      p = E ∨ p = E ++ [a.partName] ∨ p = E ++ ["desc.txt"] ∨
        ∃ nc ∈ frames, p = (E ++ [a.partName]) ++ [nc.1]) := by
  rw [build_ok a E O frames fs hcl]
  have hOne : ∀ q : Path, isUnderB E q = true → O ≠ q := by
    intro q hq he
    rw [he, hq] at hO
    cases hO
  refine ⟨rfl, ?_, ?_, ?_⟩
  · rw [fsGet_fsSet, if_neg (hOne _ (isUnderB_append E ["desc.txt"])),
      fsGet_fsSet, if_pos rfl]
  · intro nc hm
    rw [fsGet_fsSet, if_neg (hOne _ (by rw [List.append_assoc]; exact isUnderB_append E _)),
      fsGet_fsSet, if_neg (path_ne_of_length (by simp))]
    exact fsGet_writeFrames_mem hnd hm
  · intro p hpE hpsome
    obtain ⟨e, he⟩ := Option.isSome_iff_exists.mp hpsome
    have hmem := fsGet_isSome_mem he
    rcases mem_fsSet hmem with h1 | h1
    · exact absurd (congrArg Prod.fst h1) (Ne.symm (hOne p hpE))
    rcases mem_fsSet h1 with h2 | h2
    · exact Or.inr (Or.inr (Or.inl (congrArg Prod.fst h2)))
    rcases mem_writeFrames h2 with h3 | h3
    · rcases h3 with ⟨nc, hnc, hpe⟩
      exact Or.inr (Or.inr (Or.inr ⟨nc, hnc, congrArg Prod.fst hpe⟩))
    rcases mem_fsSet h3 with h4 | h4
    · exact Or.inr (Or.inl (congrArg Prod.fst h4))
    rcases mem_fsSet h4 with h5 | h5
    · exact Or.inl (congrArg Prod.fst h5)
    · have hclean := reset_clean hcl _ h5
      rw [hpE] at hclean
      cases hclean

theorem claim_C4_witness :
    closedUnder ["w"] ([(["w"], Entry.dir), (["w", "stale.txt"], Entry.file "junk")] : FS) ∧
    ([("b", "x"), ("a", "y")].map Prod.fst).Nodup ∧
    isUnderB ["w"] ["z"] = false ∧
    ((create_bootanimation_zip ⟨1, 2, 3, "p", 0, 0⟩ ["w"] ["z"]
        (Except.ok [("b", "x"), ("a", "y")])
        [(["w"], Entry.dir), (["w", "stale.txt"], Entry.file "junk")]).2 =
      Except.ok ["z"] ∧
    fsGet (["w"] ++ ["desc.txt"])
        (create_bootanimation_zip ⟨1, 2, 3, "p", 0, 0⟩ ["w"] ["z"]
          (Except.ok [("b", "x"), ("a", "y")])
          [(["w"], Entry.dir), (["w", "stale.txt"], Entry.file "junk")]).1 =
      some (Entry.file (descTxt ⟨1, 2, 3, "p", 0, 0⟩)) ∧
    (∀ nc ∈ [("b", "x"), ("a", "y")], fsGet ((["w"] ++ ["p"]) ++ [nc.1])
        (create_bootanimation_zip ⟨1, 2, 3, "p", 0, 0⟩ ["w"] ["z"]
          (Except.ok [("b", "x"), ("a", "y")])
          [(["w"], Entry.dir), (["w", "stale.txt"], Entry.file "junk")]).1 =
      some (Entry.file nc.2)) ∧
    (∀ p : Path, isUnderB ["w"] p = true →
      (fsGet p (create_bootanimation_zip ⟨1, 2, 3, "p", 0, 0⟩ ["w"] ["z"]
          (Except.ok [("b", "x"), ("a", "y")])
          [(["w"], Entry.dir), (["w", "stale.txt"], Entry.file "junk")]).1).isSome
          = true →
      p = ["w"] ∨ p = ["w"] ++ ["p"] ∨ p = ["w"] ++ ["desc.txt"] ∨
        ∃ nc ∈ [("b", "x"), ("a", "y")], p = (["w"] ++ ["p"]) ++ [nc.1])) :=
  ⟨by decide, by decide, by decide,
    claim_C4_scratch_reset ⟨1, 2, 3, "p", 0, 0⟩ ["w"] ["z"]
      [("b", "x"), ("a", "y")]
      [(["w"], Entry.dir), (["w", "stale.txt"], Entry.file "junk")]
      (by decide) (by decide) (by decide)⟩

/-- C7 counterexample: the frame naming of the extraction pattern does not
keep lexicographic and numeric order aligned for every frame count: with
10000 or more frames, the name of frame 10000 sorts strictly before the name
of frame 9999 although 9999 is numerically smaller. -/
theorem claim_C7_counterexample :
    9999 < 10000 ∧
    strLt (frameName 9999) (frameName 10000) = false ∧
    strLt (frameName 10000) (frameName 9999) = true := by
  decide

/-- C7: [corrected] frame filenames produced under the extraction pattern use
zero padding to a minimum width of four digits, so lexicographic filename
ordering coincides with numeric playback ordering exactly for frame counts up
to 9999; from frame 10000 onward the two orders diverge. -/
theorem claim_C7_frame_order {i j : Nat} (hij : i < j) (hj : j ≤ 9999) :
    strLt (frameName i) (frameName j) = true :=
  frameName_mono hij hj

theorem claim_C7_witness :
    2 < 30 ∧ 30 ≤ 9999 ∧ strLt (frameName 2) (frameName 30) = true :=
  ⟨by decide, by decide, claim_C7_frame_order (by decide) (by decide)⟩

/-- C8: [spec-modelled] the dimension probe returns the pixel dimensions of
the first video stream of the file and fails with a ProbeError when no video
stream exists; when the caller requests width 0 and height 0 and the native
stream dimensions are 720 by 1280, the resolved extraction dimensions are
exactly (720, 1280). -/
theorem claim_C8_probe (streams : List FfStream) (s : FfStream)
    (hfind : streams.find? (fun t => t.codecType == "video") = some s)
    (hw : s.width = 720) (hh : s.height = 1280) :
    probe streams = Except.ok (720, 1280) ∧
    resolveDims 0 0 (720, 1280) = (720, 1280) ∧
    (∀ ts : List FfStream, ts.find? (fun t => t.codecType == "video") = none →
      probe ts = Except.error ProbeError.noVideoStream) := by
  refine ⟨?_, rfl, ?_⟩
  · simp only [probe, hfind, hw, hh]
  · intro ts hts
    simp only [probe, hts]

theorem claim_C8_witness :
    ([⟨"audio", 0, 0⟩, ⟨"video", 720, 1280⟩] : List FfStream).find?
        (fun t => t.codecType == "video") = some ⟨"video", 720, 1280⟩ ∧
    (⟨"video", 720, 1280⟩ : FfStream).width = 720 ∧
    (⟨"video", 720, 1280⟩ : FfStream).height = 1280 ∧
    (probe [⟨"audio", 0, 0⟩, ⟨"video", 720, 1280⟩] = Except.ok (720, 1280) ∧
    resolveDims 0 0 (720, 1280) = (720, 1280) ∧
    (∀ ts : List FfStream, ts.find? (fun t => t.codecType == "video") = none →
      probe ts = Except.error ProbeError.noVideoStream)) :=
  ⟨by decide, rfl, rfl,
    claim_C8_probe [⟨"audio", 0, 0⟩, ⟨"video", 720, 1280⟩] ⟨"video", 720, 1280⟩
      (by decide) rfl rfl⟩

end BootAnim
